import Mathlib

/-!
Verification of the athena2glue SQL-migration pipeline.

This file gives a shallow embedding of the pipeline's core operations:

* `SQLParser.clean_sql`        (src/utils/sql_parser.py) — the Preprocessor;
* `normalize_date`, `find_literals_in_sql`, `date_replacements`
                               (src/nodes/extract_dates_node.py) — the Date
                               Inference Engine;
* `extract_tables_ast`         (src/nodes/extract_tables_node.py) and the
                               static registry `TABLE_CONFIG` (src/config.py);
* `clean_table_reference`, `convert_syntax`, `configure_method_params`
                               (src/nodes/convert_syntax_node.py);
* `extract_final_query_ast`    (src/nodes/extract_last_select_node.py).

The external sqlglot parser/serializer is out of scope for the repository
(a black box exposing parse, serialize and node enumeration), so parsed
fragments are modelled by the node lists that the code enumerates: a parse
attempt yields either a parse failure or the list of relevant AST nodes in
scan order, and serialization renders a token list back to text.

Machine strings are modelled as `List Char` (Python `str` is a sequence of
code points); Python regex and `str` operations used by the code are
embedded as executable scanners with the same semantics on the inputs the
code passes them.
-/

namespace Athena2Glue

/-! ## Python character / string primitives -/

/-- Python's `\s` character class (ASCII part, which is what `re.sub(r'\s+', ...)`
matches on the script texts handled here): space, tab, newline, carriage
return, vertical tab, form feed. -/
def pyIsSpace (c : Char) : Bool :=
  c = ' ' || c = '\t' || c = '\n' || c = '\r' || c = '\x0b' || c = '\x0c'

/-- Python `str.lower` restricted to ASCII letters (all identifiers handled
by the pipeline are ASCII). -/
def lowerChar (c : Char) : Char :=
  if 'A' ≤ c ∧ c ≤ 'Z' then Char.ofNat (c.toNat + 32) else c

/-- `str.lower` on a code-point list. -/
def pyLower (l : List Char) : List Char := l.map lowerChar

/-- `str.lower` on a `String`. -/
def pyLowerS (s : String) : String := ⟨pyLower s.data⟩

/-- Does `pat` occur as a prefix of `l`? -/
def isPrefixOfB (pat l : List Char) : Bool :=
  match pat, l with
  | [], _ => true
  | _ :: _, [] => false
  | p :: ps, c :: cs => p = c && isPrefixOfB ps cs

/-- Python `pat in s`: does `pat` occur as a contiguous substring of `l`? -/
def containsSub (pat l : List Char) : Bool :=
  match l with
  | [] => isPrefixOfB pat []
  | _ :: cs => isPrefixOfB pat l || containsSub pat cs

/-- Worker for `replaceAll`, structurally recursive on a fuel argument.
One unit of fuel is spent per emitted unit, and every step consumes at least
one input character, so `l.length` fuel always suffices. -/
def replaceAllF (pat rep : List Char) : Nat → List Char → List Char
  | _, [] => []
  | 0, l => l
  | fuel + 1, c :: cs =>
    if 0 < pat.length ∧ isPrefixOfB pat (c :: cs) = true then
      rep ++ replaceAllF pat rep fuel ((c :: cs).drop pat.length)
    else
      c :: replaceAllF pat rep fuel cs

/-- Python `s.replace(pat, rep)` for a nonempty `pat`: replace all
non-overlapping occurrences, scanning left to right. (All patterns the code
passes to `str.replace` are nonempty; an empty pattern leaves the text
unchanged here.) -/
def replaceAll (pat rep l : List Char) : List Char :=
  replaceAllF pat rep l.length l

/-- `str.replace` on `String`s. -/
def replaceAllS (s pat rep : String) : String :=
  ⟨replaceAll pat.data rep.data s.data⟩

/-- Python `pat in s` on `String`s. -/
def containsSubS (pat s : String) : Bool := containsSub pat.data s.data

/-! ## Preprocessor: `SQLParser.clean_sql`

```python
sql = re.sub(r'--[^\n]*', '', sql)
sql = re.sub(r'/\*.*?\*/', '', sql, flags=re.DOTALL)
sql = re.sub(r'\s+', ' ', sql)
sql = sql.strip()
```
-/

/-- Worker for `stripLineComments`. The flag is true while inside a `--`
comment: characters are dropped until (and not including) the next
newline, exactly the text matched by `--[^\n]*`. -/
def stripLCAux : Bool → List Char → List Char
  | true, [] => []
  | true, c :: cs => if c = '\n' then '\n' :: stripLCAux false cs else stripLCAux true cs
  | false, [] => []
  | false, [c] => [c]
  | false, c :: d :: rest =>
    if c = '-' ∧ d = '-' then stripLCAux true rest
    else c :: stripLCAux false (d :: rest)

/-- `re.sub(r'--[^\n]*', '', sql)`: drop every `--` together with the rest of
its line (the newline itself is not part of the match). -/
def stripLineComments (l : List Char) : List Char := stripLCAux false l

/-- Is there a `*/` somewhere in `l`?  (The regex `/\*.*?\*/` only matches an
opener that still has a closer after it.) -/
def hasCloser : List Char → Bool
  | [] => false
  | [_] => false
  | c :: d :: rest => (c = '*' ∧ d = '/') || hasCloser (d :: rest)

/-- Worker for `stripBlockComments`. The flag is true while inside a
`/* ... */` comment; comment mode is only entered when a closer exists ahead,
since the regex `/\*.*?\*/` cannot match an unclosed opener (and once the
first opener is unclosed, every later one is too). -/
def stripBCAux : Bool → List Char → List Char
  | true, [] => []
  | true, [_] => []
  | true, c :: d :: rest =>
    if c = '*' ∧ d = '/' then stripBCAux false rest else stripBCAux true (d :: rest)
  | false, [] => []
  | false, [c] => [c]
  | false, c :: d :: rest =>
    if c = '/' ∧ d = '*' ∧ hasCloser rest then stripBCAux true rest
    else c :: stripBCAux false (d :: rest)

/-- `re.sub(r'/\*.*?\*/', '', sql, flags=re.DOTALL)`: drop every block comment
from `/*` to the nearest following `*/`; a `/*` with no later `*/` matches
nothing and is kept verbatim (and then no later opener can match either). -/
def stripBlockComments (l : List Char) : List Char := stripBCAux false l

/-- `re.sub(r'\s+', ' ', sql)`: collapse every maximal whitespace run to one
space. -/
def collapseWs : List Char → List Char
  | [] => []
  | c :: rest =>
    if pyIsSpace c then
      match collapseWs rest with
      | ' ' :: t => ' ' :: t
      | r => ' ' :: r
    else c :: collapseWs rest

/-- `str.strip()` (whitespace from both ends). -/
def pyStrip (l : List Char) : List Char :=
  ((l.dropWhile pyIsSpace).reverse.dropWhile pyIsSpace).reverse

namespace SQLParser

/-- `SQLParser.clean_sql` from src/utils/sql_parser.py: strip `--` line
comments, then `/* */` block comments, then collapse whitespace runs to
single spaces, then strip. -/
def clean_sql (s : String) : String :=
  ⟨pyStrip (collapseWs (stripBlockComments (stripLineComments s.data)))⟩

end SQLParser

/-- Does `l` contain a line-comment marker `--`? -/
def hasDashDash : List Char → Bool
  | c :: d :: rest => (c = '-' ∧ d = '-') || hasDashDash (d :: rest)
  | _ => false

/-- Does `l` contain a complete block comment, i.e. a `/*` with a `*/` after
it?  (If the first opener has no closer, no opener does.) -/
def hasOpenClose : List Char → Bool
  | c :: d :: rest => (c = '/' ∧ d = '*' ∧ hasCloser rest) || hasOpenClose (d :: rest)
  | _ => false

/-- Fully collapsed text: every whitespace character is a plain space and no
two whitespace characters are adjacent — the shape `re.sub(r'\s+', ' ', ·)`
produces. -/
def collapsed (l : List Char) : Prop :=
  (∀ c ∈ l, pyIsSpace c = true → c = ' ') ∧
  l.Chain' fun a b => ¬(pyIsSpace a = true ∧ pyIsSpace b = true)

/-! ## Date Inference Engine (src/nodes/extract_dates_node.py)

A parsed fragment is modelled by what the stage enumerates from it: the list
of `exp.Literal` node payloads in AST scan order (`node.this` is a string
for string/number literals, something else otherwise).  A fragment the
parser rejects is `none`. -/

/-- Payload of a sqlglot `exp.Literal` node (`node.this`): either a Python
string or some non-string value. -/
inductive PyVal where
  | str (s : String)
  | nonStr
deriving DecidableEq, Repr

/-- A fragment as seen by the literal scan: `none` for a parse failure,
otherwise the literal payloads in scan order. -/
abbrev FragLits := Option (List PyVal)

/-- `REGEX_ISO = ^\d{4}-\d{2}-\d{2}$`. -/
def regexISO (l : List Char) : Bool :=
  match l with
  | [y1, y2, y3, y4, h1, m1, m2, h2, d1, d2] =>
    y1.isDigit && y2.isDigit && y3.isDigit && y4.isDigit && h1 = '-' &&
    m1.isDigit && m2.isDigit && h2 = '-' && d1.isDigit && d2.isDigit
  | _ => false

/-- `REGEX_INT = ^\d{8}$`. -/
def regexINT (l : List Char) : Bool :=
  l.length = 8 && l.all Char.isDigit

/-- Numeric value of a digit string. -/
def digitsToNat (l : List Char) : Nat :=
  l.foldl (fun a c => 10 * a + (c.toNat - 48)) 0

/-- Gregorian leap year, as `datetime` uses. -/
def isLeap (y : Nat) : Bool := (y % 4 = 0 && y % 100 ≠ 0) || y % 400 = 0

/-- Days in a month, as `datetime` uses. -/
def daysInMonth (y m : Nat) : Nat :=
  if m = 2 then (if isLeap y then 29 else 28)
  else if m = 4 ∨ m = 6 ∨ m = 9 ∨ m = 11 then 30
  else 31

/-- `datetime.strptime` accepts exactly the dates `datetime(y, m, d)` accepts:
year in `1..9999`, month in `1..12`, day in `1..daysInMonth`. -/
def validYMD (y m d : Nat) : Bool :=
  1 ≤ y && y ≤ 9999 && 1 ≤ m && m ≤ 12 && 1 ≤ d && d ≤ daysInMonth y m

/-- A calendar date, encoded as `y*10000 + m*100 + d` (a faithful stand-in
for the `datetime` object, whose equality is equality of the fields). -/
def dateCode (y m d : Nat) : Nat := y * 10000 + m * 100 + d

/-- Year/month/day fields of an ISO-shaped (`YYYY-MM-DD`) char list. -/
def isoY (l : List Char) : Nat := digitsToNat (l.take 4)
/-- Month field of an ISO-shaped char list. -/
def isoM (l : List Char) : Nat := digitsToNat ((l.drop 5).take 2)
/-- Day field of an ISO-shaped char list. -/
def isoD (l : List Char) : Nat := digitsToNat (l.drop 8)
/-- Year field of a compact (`YYYYMMDD`) char list. -/
def intY (l : List Char) : Nat := digitsToNat (l.take 4)
/-- Month field of a compact char list. -/
def intM (l : List Char) : Nat := digitsToNat ((l.drop 4).take 2)
/-- Day field of a compact char list. -/
def intD (l : List Char) : Nat := digitsToNat (l.drop 6)

/-- `normalize_date` from src/nodes/extract_dates_node.py: try the shape
`YYYY-MM-DD`, then `YYYYMMDD`; `strptime` additionally rejects values that
are not real calendar dates (the `ValueError` branch returns `None`). -/
def normalize_date (s : String) : Option Nat :=
  if regexISO s.data then
    if validYMD (isoY s.data) (isoM s.data) (isoD s.data) then
      some (dateCode (isoY s.data) (isoM s.data) (isoD s.data))
    else none
  else if regexINT s.data then
    if validYMD (intY s.data) (intM s.data) (intD s.data) then
      some (dateCode (intY s.data) (intM s.data) (intD s.data))
    else none
  else none

/-- `find_literals_in_sql`: on a parse failure the `except` branch returns
the (empty) accumulator; otherwise keep each string literal whose text
normalizes to a date, paired with that date. -/
def find_literals_in_sql : FragLits → List (String × Nat)
  | none => []
  | some lits =>
    lits.filterMap fun v =>
      match v with
      | .str s => (normalize_date s).map fun d => (s, d)
      | .nonStr => none

/-- Worker for `firsts`, structurally recursive on fuel (`l.length` fuel
always suffices since `filter` never lengthens the list). -/
def firstsF : Nat → List Nat → List Nat
  | _, [] => []
  | 0, l => l
  | fuel + 1, v :: vs => v :: firstsF fuel (vs.filter fun x => x ≠ v)

/-- The distinct values of `l` in first-occurrence order: the key order of a
Python `Counter`/`dict` built by insertion over `l`. -/
def firsts (l : List Nat) : List Nat := firstsF l.length l

/-- The state of `Counter(l)`: keys in first-occurrence order, each with its
multiplicity in `l`. -/
def counterPairs (l : List Nat) : List (Nat × Nat) :=
  (firsts l).map fun v => (v, l.count v)

/-- The pair with the largest second component, earliest first on ties (the
fold only switches on a strictly larger count). -/
def pickMax (p : Nat × Nat) (rest : List (Nat × Nat)) : Nat × Nat :=
  rest.foldl (fun best q => if q.2 > best.2 then q else best) p

/-- `Counter(l).most_common(1)[0][0]`: the first key (in insertion order)
attaining the maximal count — `most_common` is documented as equivalent to a
stable sort by count descending, so ties go to the earlier-inserted key.
Returns `0` on an empty list (the code never asks in that case). -/
def mostCommon (l : List Nat) : Nat :=
  match counterPairs l with
  | [] => 0
  | p :: rest => (pickMax p rest).1

/-- The ISO cutoff placeholder `{time_config.fecha_corte_iso}`. -/
def ISO_PH : String := "\x7btime_config.fecha_corte_iso\x7d"

/-- The compact cutoff placeholder `{time_config.fecha_corte}`. -/
def COMPACT_PH : String := "\x7btime_config.fecha_corte\x7d"

/-- The single-quoted form of a literal (`f"'{original_str}'"`). -/
def quoted (s : String) : String := "'" ++ s ++ "'"

/-- `"-" in original_str`. -/
def hasHyphen (s : String) : Bool := s.data.contains '-'

/-- Python dict assignment `m[k] = v` on an insertion-ordered association
list: overwrite in place if the key exists, else append. -/
def upsert (m : List (String × String)) (k v : String) : List (String × String) :=
  if m.any fun p => p.1 = k then m.map fun p => if p.1 = k then (k, v) else p
  else m ++ [(k, v)]

/-- The `replacements[...] = ...` block run for one dominant-valued literal:
hyphenated literals map their quoted and bare forms to the ISO placeholder,
compact ones map their bare form to the compact placeholder. -/
def addRepl (m : List (String × String)) (s : String) : List (String × String) :=
  if hasHyphen s then upsert (upsert m (quoted s) ISO_PH) s ISO_PH
  else upsert m s COMPACT_PH

/-- All (literal, date) candidates: every CTE body first, then the main
query, each scanned independently. -/
def allCandidates (ctes : List FragLits) (main : FragLits) : List (String × Nat) :=
  (ctes.map find_literals_in_sql).flatten ++ find_literals_in_sql main

/-- The replacement map built by `extract_dates_node`: empty when there are
no candidates; otherwise entries for exactly the candidates whose date
equals the dominant one. -/
def date_replacements (ctes : List FragLits) (main : FragLits) :
    List (String × String) :=
  let cands := allCandidates ctes main
  if cands.isEmpty then []
  else
    let dom := mostCommon (cands.map (·.2))
    cands.foldl (fun m p => if p.2 = dom then addRepl m p.1 else m) []

/-- The forms an entry of the replacement map can take for a source literal
`s`: quoted or bare mapped to the ISO placeholder when `s` is hyphenated,
bare mapped to the compact placeholder otherwise. -/
def entryFor (s k v : String) : Prop :=
  (hasHyphen s = true ∧ v = ISO_PH ∧ (k = quoted s ∨ k = s)) ∨
  (hasHyphen s = false ∧ v = COMPACT_PH ∧ k = s)

/-- An entry shape the replacement fold can ever produce: some recognized
date literal's entry. -/
def okEntry (k v : String) : Prop :=
  ∃ s d, normalize_date s = some d ∧ entryFor s k v

/-- The date values of all candidates, in scan order. -/
def candVals (ctes : List FragLits) (main : FragLits) : List Nat :=
  (allCandidates ctes main).map (·.2)

/-- The dominant date of a script. -/
def domDate (ctes : List FragLits) (main : FragLits) : Nat :=
  mostCommon (candVals ctes main)

/-- The spec's date-dominance example, literal `'2025-01-01'` three times
(one in a CTE), `'2025-06-01'` once, `20250101` once, plus a parse-failing
fragment and non-date literals. -/
def exampleCtes : List FragLits :=
  [some [.str "2025-01-01", .str "2025-06-01"], none]

/-- Main query of the date-dominance example. -/
def exampleMain : FragLits :=
  some [.str "2025-01-01", .str "2025-01-01", .str "20250101", .nonStr, .str "foo"]

/-! ## Table Extractor (src/nodes/extract_tables_node.py, src/config.py)

A parsed fragment is modelled by the `exp.Table` nodes the stage enumerates
(`node.name`, `node.db`, `node.catalog`, case preserved; an absent qualifier
is the empty string, which is falsy in Python). -/

/-- A sqlglot `exp.Table` node as read by the extractor. -/
structure TableNode where
  name : String
  db : String
  catalog : String
deriving DecidableEq, Repr

/-- A fragment as seen by the table scan: `none` for a parse failure,
otherwise the table nodes in scan order. -/
abbrev FragTables := Option (List TableNode)

/-- `TableSourceInfo` from src/models/table_info.py (positional fields in
constructor order). -/
structure TableSourceInfo where
  full_name : String
  catalog : String
  catalog_name : String
  database : String
  table : String
  table_type : String
  python_get : String
  python_var : String
deriving DecidableEq, Repr

/-- `TABLE_CONFIG` from src/config.py: the static managed-table registry. -/
def TABLE_CONFIG : List (String × String) :=
  [("dwh_thr_modelo_datos.dim_tiempo", "iceberg"),
   ("dwh_thr_reportes.fct_saldos_semanal_detallado", "iceberg"),
   ("stg_cap.stg_segmentacion_saldos_trad", "iceberg"),
   ("stg_cap.stg_segmentacion_saldos_pib", "iceberg")]

/-- Python dict lookup `TABLE_CONFIG.get(k)` / `k in TABLE_CONFIG` (exact
string keys). -/
def configGet (k : String) : Option String :=
  (TABLE_CONFIG.find? fun p => p.1 = k).map (·.2)

/-- The `TableSourceInfo(...)` constructed for one table node in
`extract_tables_ast`. -/
def mkTableInfo (n : TableNode) : TableSourceInfo :=
  let full_name := n.db ++ "." ++ n.name
  { full_name := full_name
    catalog := if (configGet full_name).isSome then "glue_catalog" else "spark_catalog"
    catalog_name := n.catalog
    database := n.db
    table := n.name
    table_type := (configGet full_name).getD "unknown"
    python_get := "tbl_" ++ n.name ++ " = self._get_table('" ++ n.name ++ "')"
    python_var := "tlb_" ++ n.name }

/-- `extract_tables_ast`: a parse failure raises (`ValueError`, modelled as
`Except.error`); otherwise each schema-qualified node whose table name has
not been collected yet (exact-string comparison against `t.table` of the
collected entries) is appended. -/
def extract_tables_ast : FragTables → Except String (List TableSourceInfo)
  | none => .error "CRITICAL: Failed to parse SQL for table extraction"
  | some nodes =>
    .ok (nodes.foldl
      (fun tables n =>
        if n.db ≠ "" ∧ n.name ∉ tables.map (·.table) then tables ++ [mkTableInfo n]
        else tables)
      [])

/-- The successful result of `extract_tables_ast` (empty on error; used only
to state claims about successful extractions). -/
def extractedTables (f : FragTables) : List TableSourceInfo :=
  match extract_tables_ast f with
  | .ok ts => ts
  | .error _ => []

/-- Modelled from the spec (amended form of the dedup rule, for comparison
with the source fold): keep the first schema-qualified occurrence of each
exact-case table name, threading the set of seen names. -/
def firstOccByName : List TableNode → List String → List TableSourceInfo
  | [], _ => []
  | n :: ns, seen =>
    if n.db ≠ "" ∧ n.name ∉ seen then mkTableInfo n :: firstOccByName ns (n.name :: seen)
    else firstOccByName ns seen

/-! ## Dialect Converter (src/nodes/convert_syntax_node.py)

A fragment AST is modelled as the interleaving the converter manipulates:
table-reference nodes (with catalog/schema/name qualifiers) and opaque
serialized text in between.  `expression.sql(...)` renders the tokens in
order, a table node as its dotted qualified name. -/

/-- A fragment AST token: a table-reference node or opaque surrounding
text. -/
inductive SqlTok where
  | tbl (catalog db name : String)
  | txt (s : String)
deriving DecidableEq, Repr

/-- The `for t in known_tables: ... break` loop of `clean_table_reference`:
the `python_var` of the first known table matching `(schema, table)`
case-insensitively. -/
def findPythonVar (known : List TableSourceInfo) (db name : String) : Option String :=
  (known.find? fun t => pyLowerS t.table = pyLowerS name ∧ pyLowerS t.database = pyLowerS db).map
    (·.python_var)

/-- `clean_table_reference`: when a case-insensitive match is found (and its
binding name is truthy, i.e. nonempty), clear the node's `db` and `catalog`
qualifiers. -/
def clean_table_reference (known : List TableSourceInfo) : SqlTok → SqlTok
  | .txt s => .txt s
  | .tbl c d n =>
    match findPythonVar known d n with
    | some v => if v ≠ "" then .tbl "" "" n else .tbl c d n
    | none => .tbl c d n

/-- Serialization of one token: a table node renders as its dotted
(remaining) qualifiers and name. -/
def renderTok : SqlTok → String
  | .txt s => s
  | .tbl c d n =>
    (if c ≠ "" then c ++ "." else "") ++ (if d ≠ "" then d ++ "." else "") ++ n

/-- `expression.sql(dialect=TARGET_DIALECT)`: render the token list. -/
def serializeFrag (f : List SqlTok) : String := String.join (f.map renderTok)

/-- `apply_date_replacements`: apply every map entry in order as plain
substring replacement. -/
def apply_date_replacements (s : String) (repl : List (String × String)) : String :=
  repl.foldl (fun acc p => replaceAllS acc p.1 p.2) s

/-- Step 3 of `convert_syntax`: replace each known table's bare name in the
serialized text by `{` + its binding variable + `}`. -/
def injectTableVars (s : String) (tables : List TableSourceInfo) : String :=
  tables.foldl (fun acc tb => replaceAllS acc tb.table ("\x7b" ++ tb.python_var ++ "\x7d")) s

/-- `convert_syntax`: clean the table nodes in the AST, serialize, inject
table binding placeholders, then apply the date replacements. -/
def convert_syntax (f : List SqlTok) (tables : List TableSourceInfo)
    (repl : List (String × String)) : String :=
  apply_date_replacements
    (injectTableVars (serializeFrag (f.map (clean_table_reference tables))) tables) repl

/-- `configure_method_params`: derive (adjusted SQL, parameter-list text,
call-argument text).  `", ".join(["self"]) = "self"`, `", ".join([]) = ""`. -/
def configure_method_params (s : String) : String × String × String :=
  if containsSubS ISO_PH s then
    (replaceAllS s ISO_PH "'\x7bfecha_corte_iso\x7d'",
     "self, fecha_corte_iso: str",
     "self.time_config.fecha_corte_iso")
  else if containsSubS COMPACT_PH s then
    (replaceAllS s COMPACT_PH "\x7bfecha_corte\x7d",
     "self, fecha_corte: str",
     "self.time_config.fecha_corte")
  else (s, "self", "")

/-! ## Main-Body Extractor (src/nodes/extract_last_select_node.py)

The parsed script is modelled by its optional top-level WITH clause (a list
of named CTE bodies) and its terminal query text.  sqlglot stores the WITH
clause of a parsed statement under the args key `"with"` (the builder
*method* is named `with_` only because `with` is a Python keyword). -/

/-- A parsed full script: optional top-level WITH clause and terminal
query. -/
structure ScriptAst where
  ctes : Option (List (String × String))
  body : String
deriving DecidableEq, Repr

/-- The keys present in `parsed.args` that matter here: `"with"` exactly when
the script has a WITH clause. -/
def sqlglotArgsKeys (p : ScriptAst) : List String :=
  match p.ctes with
  | some _ => ["with"]
  | none => []

/-- Python `key in parsed.args`. -/
def argsContains (p : ScriptAst) (k : String) : Bool :=
  (sqlglotArgsKeys p).contains k

/-- Python `del parsed.args[key]` restricted to the modelled keys. -/
def delArg (p : ScriptAst) (k : String) : ScriptAst :=
  if k = "with" then { p with ctes := none } else p

/-- `", "`-joining. -/
def joinComma : List String → String
  | [] => ""
  | [s] => s
  | s :: rest => s ++ ", " ++ joinComma rest

/-- `parsed.sql()`: a script with a WITH clause renders as
`WITH n1 AS (b1), ... bodyText`; without one, as its terminal query. -/
def serializeScript (p : ScriptAst) : String :=
  match p.ctes with
  | none => p.body
  | some cs =>
    "WITH " ++ joinComma (cs.map fun nc => nc.1 ++ " AS (" ++ nc.2 ++ ")") ++ " " ++ p.body

/-- `extract_final_query_ast`: delete the args entry `"with_"` if present,
then reserialize.  (The code tests for the key `"with_"`, not `"with"`.) -/
def extract_final_query_ast (p : ScriptAst) : String :=
  if argsContains p "with_" then serializeScript (delArg p "with_")
  else serializeScript p

/-! # Theorems -/

/-! ## Main-Body Extractor (C5) -/

/-- C5: the claim says the Main-Body Extractor removes a leading WITH clause
and returns only the terminal query.  The code instead tests
`"with_" in parsed.args`, but sqlglot stores the WITH clause under the args
key `"with"`, so the deletion never fires and the function always returns
the full reserialized script, WITH clause included — contradicting its own
docstring ("elimina la cláusula WITH (CTEs) para devolver únicamente la
consulta principal").  First conjunct: the extractor is reserialization on
every script.  Second conjunct: on the failing input
`WITH x AS (SELECT 1) SELECT * FROM x` the output still carries the WITH
clause instead of being `SELECT * FROM x`. -/
theorem C5_with_clause_never_removed :
    (∀ p : ScriptAst, extract_final_query_ast p = serializeScript p) ∧
    extract_final_query_ast ⟨some [("x", "SELECT 1")], "SELECT * FROM x"⟩ =
      "WITH x AS (SELECT 1) SELECT * FROM x" := by
  constructor
  · intro p
    have h : argsContains p "with_" = false := by
      obtain ⟨ctes, body⟩ := p
      unfold argsContains sqlglotArgsKeys
      cases ctes <;> rfl
    simp [extract_final_query_ast, h]
  · decide

/-! ## Parameter-signature derivation (C4, C10) -/

/-- C4: if the ISO cutoff placeholder is present in the converted fragment,
it is rewritten to the local quoted placeholder and the derived signature is
exactly `self, fecha_corte_iso: str` with call argument
`self.time_config.fecha_corte_iso`; otherwise, if the compact placeholder is
present, the signature is exactly `self, fecha_corte: str` with call
argument `self.time_config.fecha_corte`; otherwise there are no extra
parameters. -/
theorem C4_parameter_derivation (s : String) :
    (containsSubS ISO_PH s = true →
      configure_method_params s =
        (replaceAllS s ISO_PH "'\x7bfecha_corte_iso\x7d'",
         "self, fecha_corte_iso: str", "self.time_config.fecha_corte_iso")) ∧
    (containsSubS ISO_PH s = false → containsSubS COMPACT_PH s = true →
      configure_method_params s =
        (replaceAllS s COMPACT_PH "\x7bfecha_corte\x7d",
         "self, fecha_corte: str", "self.time_config.fecha_corte")) ∧
    (containsSubS ISO_PH s = false → containsSubS COMPACT_PH s = false →
      configure_method_params s = (s, "self", "")) := by
  refine ⟨fun h1 => ?_, fun h1 h2 => ?_, fun h1 h2 => ?_⟩ <;>
    simp [configure_method_params, h1]
  · simp [h2]
  · simp [h2]

/-- Witness for C4 at a concrete fragment containing the ISO placeholder. -/
theorem C4_parameter_derivation_witness :
    configure_method_params "WHERE d = \x7btime_config.fecha_corte_iso\x7d" =
      ("WHERE d = '\x7bfecha_corte_iso\x7d'",
       "self, fecha_corte_iso: str", "self.time_config.fecha_corte_iso") := by
  have h := (C4_parameter_derivation "WHERE d = \x7btime_config.fecha_corte_iso\x7d").1
    (by decide)
  rw [h]
  decide

/-- C10: on a fragment containing neither cutoff placeholder,
`configure_method_params` returns the text unchanged, the parameter list is
exactly the receiver `self`, and the call-argument list is empty. -/
theorem C10_no_placeholder_identity (s : String)
    (h1 : containsSubS ISO_PH s = false) (h2 : containsSubS COMPACT_PH s = false) :
    configure_method_params s = (s, "self", "") := by
  simp [configure_method_params, h1, h2]

/-- Witness for C10 at a concrete placeholder-free fragment. -/
theorem C10_no_placeholder_identity_witness :
    configure_method_params "SELECT * FROM t WHERE a = 1" =
      ("SELECT * FROM t WHERE a = 1", "self", "") :=
  C10_no_placeholder_identity "SELECT * FROM t WHERE a = 1" (by decide) (by decide)

/-! ## Table Extractor (C2, C7, C8) -/

theorem firstOccByName_seen_congr (ns : List TableNode) (s₁ s₂ : List String)
    (h : ∀ x, x ∈ s₁ ↔ x ∈ s₂) : firstOccByName ns s₁ = firstOccByName ns s₂ := by
  induction ns generalizing s₁ s₂ with
  | nil => rfl
  | cons n ns ih =>
    simp only [firstOccByName]
    by_cases hn : n.db ≠ "" ∧ n.name ∉ s₁
    · rw [if_pos hn, if_pos ⟨hn.1, fun hm => hn.2 ((h n.name).2 hm)⟩]
      exact congrArg _ (ih _ _ fun x => by
        simp only [List.mem_cons]
        exact or_congr Iff.rfl (h x))
    · rw [if_neg hn, if_neg fun hc => hn ⟨hc.1, fun hm => hc.2 ((h n.name).1 hm)⟩]
      exact ih _ _ h

theorem extract_tables_foldl_eq (ns : List TableNode) (acc : List TableSourceInfo) :
    ns.foldl
      (fun tables n =>
        if n.db ≠ "" ∧ n.name ∉ tables.map (·.table) then tables ++ [mkTableInfo n]
        else tables)
      acc = acc ++ firstOccByName ns (acc.map (·.table)) := by
  induction ns generalizing acc with
  | nil => simp [firstOccByName]
  | cons n ns ih =>
    simp only [List.foldl_cons, firstOccByName]
    by_cases h : n.db ≠ "" ∧ n.name ∉ acc.map (·.table)
    · rw [if_pos h, if_pos h, ih]
      have hmap : (acc ++ [mkTableInfo n]).map (·.table) = acc.map (·.table) ++ [n.name] := by
        simp [mkTableInfo]
      rw [hmap, firstOccByName_seen_congr ns (acc.map (·.table) ++ [n.name])
        (n.name :: acc.map (·.table)) (fun x => by simp [or_comm])]
      simp
    · rw [if_neg h, if_neg h, ih]

theorem firstOccByName_nodup (ns : List TableNode) (seen : List String) :
    ((firstOccByName ns seen).map (·.table)).Nodup ∧
      ∀ x ∈ (firstOccByName ns seen).map (·.table), x ∉ seen := by
  induction ns generalizing seen with
  | nil => simp [firstOccByName]
  | cons n ns ih =>
    simp only [firstOccByName]
    by_cases h : n.db ≠ "" ∧ n.name ∉ seen
    · rw [if_pos h]
      obtain ⟨ih1, ih2⟩ := ih (n.name :: seen)
      have htbl : (mkTableInfo n).table = n.name := rfl
      refine ⟨?_, ?_⟩
      · simp only [List.map_cons, htbl, List.nodup_cons]
        exact ⟨fun hm => (ih2 _ hm) (List.mem_cons_self _ _), ih1⟩
      · intro x hx
        simp only [List.map_cons, htbl, List.mem_cons] at hx
        rcases hx with rfl | hx
        · exact h.2
        · exact fun hs => (ih2 x hx) (List.mem_cons_of_mem _ hs)
    · rw [if_neg h]
      obtain ⟨ih1, ih2⟩ := ih seen
      exact ⟨ih1, ih2⟩

theorem extractedTables_some (nodes : List TableNode) :
    extractedTables (some nodes) = firstOccByName nodes [] := by
  have h : extractedTables (some nodes) =
      nodes.foldl
        (fun tables n =>
          if n.db ≠ "" ∧ n.name ∉ tables.map (·.table) then tables ++ [mkTableInfo n]
          else tables)
        [] := rfl
  rw [h, extract_tables_foldl_eq nodes []]
  simp

/-- C2 counterexample: the claim says at most one entry per case-insensitive
`(schema, table)` pair, and that `FROM a.b, FROM a.b, JOIN a.B` yields
exactly one entry.  The dedup is actually exact-case and keyed on the table
name alone, so the scan `a.b, a.b, a.B` keeps two entries whose
case-insensitive pairs are both `(a, b)`. -/
theorem C2_counterexample :
    (extractedTables (some [⟨"b", "a", ""⟩, ⟨"b", "a", ""⟩, ⟨"B", "a", ""⟩])).map
        (fun t => (pyLowerS t.database, pyLowerS t.table)) =
      [("a", "b"), ("a", "b")] := by
  decide

/-- C2 (amended): per fragment, the extractor keeps the first schema-qualified
occurrence of each exact-case table name (the schema plays no role in the
dedup, and differing letter case produces separate entries); the kept entry
and its generated binding name are those built from that first occurrence,
and the output table names are pairwise distinct. -/
theorem C2_dedup_amended (nodes : List TableNode) :
    extractedTables (some nodes) = firstOccByName nodes [] ∧
      ((extractedTables (some nodes)).map (·.table)).Nodup := by
  have he := extractedTables_some nodes
  exact ⟨he, by rw [he]; exact (firstOccByName_nodup nodes []).1⟩

theorem mem_firstOccByName (ns : List TableNode) (seen : List String)
    (t : TableSourceInfo) (h : t ∈ firstOccByName ns seen) :
    ∃ n ∈ ns, t = mkTableInfo n := by
  induction ns generalizing seen with
  | nil => simp [firstOccByName] at h
  | cons n ns ih =>
    simp only [firstOccByName] at h
    by_cases hc : n.db ≠ "" ∧ n.name ∉ seen
    · rw [if_pos hc] at h
      rcases List.mem_cons.1 h with rfl | h
      · exact ⟨n, List.mem_cons_self _ _, rfl⟩
      · obtain ⟨n', hn', ht⟩ := ih _ h
        exact ⟨n', List.mem_cons_of_mem _ hn', ht⟩
    · rw [if_neg hc] at h
      obtain ⟨n', hn', ht⟩ := ih _ h
      exact ⟨n', List.mem_cons_of_mem _ hn', ht⟩

theorem configGet_eq_some (k v : String) (h : (k, v) ∈ TABLE_CONFIG) :
    configGet k = some v := by
  simp only [TABLE_CONFIG, List.mem_cons, List.not_mem_nil, or_false, Prod.mk.injEq] at h
  rcases h with ⟨rfl, rfl⟩ | ⟨rfl, rfl⟩ | ⟨rfl, rfl⟩ | ⟨rfl, rfl⟩ <;> decide

theorem configGet_mem (k v : String) (h : configGet k = some v) : (k, v) ∈ TABLE_CONFIG := by
  unfold configGet at h
  obtain ⟨p, hp, hv⟩ := Option.map_eq_some'.1 h
  have hk := List.find?_some hp
  have hm := List.mem_of_find?_eq_some hp
  simp only [decide_eq_true_eq] at hk
  obtain ⟨p1, p2⟩ := p
  cases hk
  cases hv
  exact hm

/-- C7 counterexample: the claim says classification is by case-insensitive
lookup of `schema.table` in the registry.  The reference
`STG_CAP.stg_segmentacion_saldos_trad` is case-insensitively equal to the
registry key `stg_cap.stg_segmentacion_saldos_trad` (an `iceberg` entry),
yet the code's exact-string lookup classifies it `unknown`/`spark_catalog`. -/
theorem C7_counterexample :
    pyLowerS "STG_CAP.stg_segmentacion_saldos_trad" =
        pyLowerS "stg_cap.stg_segmentacion_saldos_trad" ∧
      ("stg_cap.stg_segmentacion_saldos_trad", "iceberg") ∈ TABLE_CONFIG ∧
      (extractedTables (some [⟨"stg_segmentacion_saldos_trad", "STG_CAP", ""⟩])).map
          (fun t => (t.table_type, t.catalog)) =
        [("unknown", "spark_catalog")] := by
  refine ⟨by decide, by decide, by decide⟩

/-- C7 (amended): classification is by exact (case-sensitive) lookup of
`schema.table` against the registry: an extracted entry whose `full_name` is
exactly a registry key carries that key's storage format and
`glue_catalog`; one whose `full_name` is not a registry key is classified
`unknown`/`spark_catalog`. -/
theorem C7_registry_lookup_amended (nodes : List TableNode) :
    ∀ t ∈ extractedTables (some nodes),
      (∀ fmt, (t.full_name, fmt) ∈ TABLE_CONFIG →
        t.table_type = fmt ∧ t.catalog = "glue_catalog") ∧
      ((∀ fmt, (t.full_name, fmt) ∉ TABLE_CONFIG) →
        t.table_type = "unknown" ∧ t.catalog = "spark_catalog") := by
  intro t ht
  rw [extractedTables_some nodes] at ht
  obtain ⟨n, _, rfl⟩ := mem_firstOccByName nodes [] t ht
  constructor
  · intro fmt hmem
    have : configGet (mkTableInfo n).full_name = some fmt := configGet_eq_some _ _ hmem
    have hfull : (mkTableInfo n).full_name = n.db ++ "." ++ n.name := rfl
    rw [hfull] at this
    simp [mkTableInfo, this]
  · intro hno
    have : configGet (n.db ++ "." ++ n.name) = none := by
      cases hg : configGet (n.db ++ "." ++ n.name) with
      | none => rfl
      | some v =>
        exact absurd (configGet_mem _ _ hg) (hno v)
    simp [mkTableInfo, this]

/-- Witness for C7 (amended): a registry table and an unknown one, classified
by exact lookup. -/
theorem C7_registry_lookup_amended_witness :
    (mkTableInfo ⟨"dim_tiempo", "dwh_thr_modelo_datos", ""⟩).table_type = "iceberg" ∧
      (mkTableInfo ⟨"dim_tiempo", "dwh_thr_modelo_datos", ""⟩).catalog = "glue_catalog" := by
  have h := C7_registry_lookup_amended
    [⟨"dim_tiempo", "dwh_thr_modelo_datos", ""⟩]
    (mkTableInfo ⟨"dim_tiempo", "dwh_thr_modelo_datos", ""⟩) (by decide)
  exact h.1 "iceberg" (by decide)

/-- C8: a fragment the parser rejects makes `extract_tables_ast` raise
(`Except.error`, never a result), while inside the Date Inference Engine a
rejected fragment is caught: it contributes no literal candidates, and both
the candidate scan and the resulting replacement map are those of the
remaining (parsed) fragments — the engine is total, it never raises. -/
theorem C8_parse_failure_handling :
    (∃ msg, extract_tables_ast none = Except.error msg) ∧
    find_literals_in_sql none = [] ∧
    (∀ (ctes : List FragLits) (main : FragLits),
      allCandidates ctes main = allCandidates (ctes.filter Option.isSome) main) ∧
    (∀ (ctes : List FragLits) (main : FragLits),
      date_replacements ctes main = date_replacements (ctes.filter Option.isSome) main) := by
  have hcand : ∀ (ctes : List FragLits) (main : FragLits),
      allCandidates ctes main = allCandidates (ctes.filter Option.isSome) main := by
    intro ctes main
    induction ctes with
    | nil => rfl
    | cons c ctes ih =>
      cases c with
      | none =>
        simpa [allCandidates, find_literals_in_sql, List.filter_cons] using ih
      | some lits =>
        simp only [allCandidates, List.map_cons, List.flatten_cons, List.filter_cons,
          Option.isSome_some, if_true, List.append_assoc] at ih ⊢
        rw [ih]
  exact ⟨⟨_, rfl⟩, rfl, hcand, fun ctes main => by
    simp only [date_replacements, hcand ctes main]⟩

/-! ## Preprocessor (C6) -/

theorem stripLCAux_id : ∀ l : List Char, hasDashDash l = false → stripLCAux false l = l
  | [], _ => rfl
  | [_], _ => rfl
  | c :: d :: rest, h => by
    simp only [hasDashDash, Bool.or_eq_false_iff, decide_eq_false_iff_not] at h
    simp only [stripLCAux, if_neg h.1]
    exact congrArg (c :: ·) (stripLCAux_id (d :: rest) h.2)

theorem stripBCAux_id : ∀ l : List Char, hasOpenClose l = false → stripBCAux false l = l
  | [], _ => rfl
  | [_], _ => rfl
  | c :: d :: rest, h => by
    simp only [hasOpenClose, Bool.or_eq_false_iff, decide_eq_false_iff_not] at h
    simp only [stripBCAux, if_neg h.1]
    exact congrArg (c :: ·) (stripBCAux_id (d :: rest) h.2)

theorem collapsed_tail {c : Char} {l : List Char} (h : collapsed (c :: l)) : collapsed l :=
  ⟨fun x hx => h.1 x (List.mem_cons_of_mem _ hx), h.2.tail⟩

theorem collapsed_collapseWs (l : List Char) : collapsed (collapseWs l) := by
  induction l with
  | nil => exact ⟨by simp [collapseWs], by simp [collapseWs]⟩
  | cons c rest ih =>
    simp only [collapseWs]
    split
    · -- pyIsSpace c
      split
      · -- collapseWs rest = ' ' :: t
        next t heq => rw [heq] at ih; exact ih
      · -- default arm: result is ' ' :: collapseWs rest
        next hne =>
          refine ⟨?_, ?_⟩
          · intro x hx _
            rcases List.mem_cons.1 hx with rfl | hx
            · rfl
            · exact ih.1 x hx ‹_›
          · refine List.chain'_cons'.2 ⟨?_, ih.2⟩
            intro b hb
            rintro ⟨-, hwb⟩
            cases hq : collapseWs rest with
            | nil => rw [hq] at hb; simp at hb
            | cons y ys =>
              rw [hq] at hb
              simp only [List.head?_cons, Option.mem_def, Option.some.injEq] at hb
              subst hb
              have hy : y = ' ' := ih.1 y (by rw [hq]; exact List.mem_cons_self _ _) hwb
              exact hne ys (by rw [hq, hy])
    · -- ¬ pyIsSpace c
      next hc =>
        refine ⟨?_, ?_⟩
        · intro x hx hwx
          rcases List.mem_cons.1 hx with rfl | hx
          · exact absurd hwx hc
          · exact ih.1 x hx hwx
        · refine List.chain'_cons'.2 ⟨?_, ih.2⟩
          intro b _
          rintro ⟨hwc, -⟩
          exact hc hwc

theorem collapseWs_eq_self : ∀ l : List Char, collapsed l → collapseWs l = l
  | [], _ => rfl
  | c :: rest, h => by
    have hrest := collapsed_tail h
    simp only [collapseWs, collapseWs_eq_self rest hrest]
    by_cases hc : pyIsSpace c = true
    · have hc' : c = ' ' := h.1 c (List.mem_cons_self _ _) hc
      subst hc'
      rw [if_pos hc]
      cases rest with
      | nil => rfl
      | cons x t =>
        have hx : ¬ pyIsSpace x = true := by
          have hrel := (List.chain'_cons.1 h.2).1
          intro hwx
          exact hrel ⟨hc, hwx⟩
        have hx' : x ≠ ' ' := by
          intro he
          rw [he] at hx
          exact hx (by decide)
        split
        · next t' heq =>
            rw [List.cons.injEq] at heq
            exact absurd heq.1 hx'
        · rfl
    · rw [if_neg hc]

theorem dropWhile_dropWhile (p : Char → Bool) :
    ∀ l : List Char, (l.dropWhile p).dropWhile p = l.dropWhile p
  | [] => rfl
  | c :: cs => by
    rw [List.dropWhile_cons]
    by_cases h : p c = true
    · rw [if_pos h]; exact dropWhile_dropWhile p cs
    · rw [if_neg h, List.dropWhile_cons, if_neg h]

theorem dropWhile_head_false (p : Char → Bool) :
    ∀ (l : List Char) (c : Char) (cs : List Char), l.dropWhile p = c :: cs → p c = false
  | [], c, cs, h => by simp at h
  | a :: l, c, cs, h => by
    rw [List.dropWhile_cons] at h
    by_cases ha : p a = true
    · rw [if_pos ha] at h; exact dropWhile_head_false p l c cs h
    · rw [if_neg ha] at h
      cases h
      simpa using ha

theorem collapsed_dropWhile (l : List Char) (h : collapsed l) :
    collapsed (l.dropWhile pyIsSpace) := by
  induction l with
  | nil => exact h
  | cons c cs ih =>
    rw [List.dropWhile_cons]
    by_cases hc : pyIsSpace c = true
    · rw [if_pos hc]; exact ih (collapsed_tail h)
    · rw [if_neg hc]; exact h

theorem collapsed_reverse (l : List Char) (h : collapsed l) : collapsed l.reverse := by
  refine ⟨fun x hx => h.1 x (List.mem_reverse.1 hx), ?_⟩
  rw [List.chain'_reverse]
  exact h.2.imp fun _ _ hab hp => hab ⟨hp.2, hp.1⟩

theorem pyStrip_collapsed (l : List Char) (h : collapsed l) : collapsed (pyStrip l) :=
  collapsed_reverse _ (collapsed_dropWhile _ (collapsed_reverse _ (collapsed_dropWhile _ h)))

theorem pyStrip_idem (l : List Char) : pyStrip (pyStrip l) = pyStrip l := by
  unfold pyStrip
  have h1 : ((((l.dropWhile pyIsSpace).reverse.dropWhile pyIsSpace).reverse).dropWhile pyIsSpace) =
      ((l.dropWhile pyIsSpace).reverse.dropWhile pyIsSpace).reverse := by
    cases hvr : ((l.dropWhile pyIsSpace).reverse.dropWhile pyIsSpace).reverse with
    | nil => rfl
    | cons c cs =>
      have hpre : ((l.dropWhile pyIsSpace).reverse.dropWhile pyIsSpace).reverse <+:
          l.dropWhile pyIsSpace := by
        have hsuf : (l.dropWhile pyIsSpace).reverse.dropWhile pyIsSpace <:+
            (l.dropWhile pyIsSpace).reverse := List.dropWhile_suffix _
        have := List.reverse_prefix.2 hsuf
        simpa using this
      obtain ⟨t, ht⟩ := hpre
      rw [hvr] at ht
      have hc : pyIsSpace c = false :=
        dropWhile_head_false pyIsSpace l c (cs ++ t) (by rw [← ht]; rfl)
      rw [List.dropWhile_cons, if_neg (by simp [hc])]
  rw [h1, List.reverse_reverse, dropWhile_dropWhile]

/-- C6 counterexample: `clean_sql` is not idempotent.  On the input made of
a hyphen, an empty block comment and a hyphen, the block-comment pass glues
the two hyphens into `--`, so the first pass returns `--` and a second pass
deletes it as a line comment. -/
theorem C6_counterexample :
    SQLParser.clean_sql (SQLParser.clean_sql "-/**/-") ≠ SQLParser.clean_sql "-/**/-" := by
  decide

/-- C6 (amended): `clean_sql` is idempotent on every input whose cleaned
form contains no line-comment marker `--` and no complete block comment —
re-cleaning only differs when the first pass manufactures a new comment
marker, as in the counterexample. -/
theorem C6_clean_idempotent_amended (x : String)
    (h1 : hasDashDash (SQLParser.clean_sql x).data = false)
    (h2 : hasOpenClose (SQLParser.clean_sql x).data = false) :
    SQLParser.clean_sql (SQLParser.clean_sql x) = SQLParser.clean_sql x := by
  have key : ∀ w : List Char,
      hasDashDash (pyStrip (collapseWs w)) = false →
      hasOpenClose (pyStrip (collapseWs w)) = false →
      pyStrip (collapseWs (stripBlockComments (stripLineComments (pyStrip (collapseWs w))))) =
        pyStrip (collapseWs w) := by
    intro w hw1 hw2
    rw [show stripLineComments (pyStrip (collapseWs w)) = pyStrip (collapseWs w) from
      stripLCAux_id _ hw1]
    rw [show stripBlockComments (pyStrip (collapseWs w)) = pyStrip (collapseWs w) from
      stripBCAux_id _ hw2]
    rw [collapseWs_eq_self _ (pyStrip_collapsed _ (collapsed_collapseWs w)), pyStrip_idem]
  exact congrArg String.mk
    (key (stripBlockComments (stripLineComments x.data)) h1 h2)

/-- Witness for C6 (amended) at a concrete input whose cleaned form is
comment-free. -/
theorem C6_clean_idempotent_amended_witness :
    SQLParser.clean_sql (SQLParser.clean_sql " SELECT  1 -- tail\n FROM t ") =
      SQLParser.clean_sql " SELECT  1 -- tail\n FROM t " :=
  C6_clean_idempotent_amended " SELECT  1 -- tail\n FROM t " (by decide) (by decide)

/-! ## Dialect Converter (C3) -/

/-- C3: the converter first rewrites the AST — clearing catalog and schema on
exactly the table nodes that match a known table case-insensitively on
`(schema, table)` (known tables carry nonempty generated binding names, per
the data model) — and only then, on the serialized text, wraps each known
table's binding variable in a placeholder wherever its bare table name
occurs, before applying the date replacements. -/
theorem C3_converter_order (f : List SqlTok) (known : List TableSourceInfo)
    (repl : List (String × String))
    (hvar : ∀ t ∈ known, t.python_var ≠ "") :
    (∀ c d n, SqlTok.tbl c d n ∈ f →
      ((∃ t ∈ known, pyLowerS t.table = pyLowerS n ∧ pyLowerS t.database = pyLowerS d) →
        clean_table_reference known (.tbl c d n) = .tbl "" "" n) ∧
      ((∀ t ∈ known, ¬(pyLowerS t.table = pyLowerS n ∧ pyLowerS t.database = pyLowerS d)) →
        clean_table_reference known (.tbl c d n) = .tbl c d n)) ∧
    convert_syntax f known repl =
      apply_date_replacements
        (injectTableVars (serializeFrag (f.map (clean_table_reference known))) known) repl := by
  refine ⟨fun c d n _ => ⟨fun hex => ?_, fun hnone => ?_⟩, rfl⟩
  · obtain ⟨t, ht, hp⟩ := hex
    have hsome : (known.find? fun t =>
        pyLowerS t.table = pyLowerS n ∧ pyLowerS t.database = pyLowerS d).isSome := by
      rw [List.find?_isSome]
      exact ⟨t, ht, by simpa using hp⟩
    obtain ⟨t', hfind⟩ := Option.isSome_iff_exists.1 hsome
    have ht'mem := List.mem_of_find?_eq_some hfind
    have hvar' := hvar t' ht'mem
    simp only [clean_table_reference, findPythonVar, hfind, Option.map_some']
    rw [if_pos hvar']
  · have hnone' : (known.find? fun t =>
        pyLowerS t.table = pyLowerS n ∧ pyLowerS t.database = pyLowerS d) = none := by
      rw [List.find?_eq_none]
      intro t ht
      simpa using hnone t ht
    simp only [clean_table_reference, findPythonVar, hnone', Option.map_none']

/-- Witness for C3 at a concrete fragment, known-table list and date map. -/
theorem C3_converter_order_witness :
    convert_syntax
        [.txt "SELECT * FROM ", .tbl "" "DB1" "Customers", .txt " WHERE d = '2024-03-15'"]
        [mkTableInfo ⟨"customers", "db1", ""⟩] [("'2024-03-15'", ISO_PH)] =
      apply_date_replacements
        (injectTableVars
          (serializeFrag
            ([.txt "SELECT * FROM ", .tbl "" "DB1" "Customers",
              .txt " WHERE d = '2024-03-15'"].map
              (clean_table_reference [mkTableInfo ⟨"customers", "db1", ""⟩])))
          [mkTableInfo ⟨"customers", "db1", ""⟩])
        [("'2024-03-15'", ISO_PH)] :=
  (C3_converter_order _ _ _ (by decide)).2

/-! ## Dominant-date selection (towards C1, C9) -/

theorem find?_cons_pos {α : Type} (P : α → Bool) (a : α) (l : List α) (h : P a = true) :
    (a :: l).find? P = some a := by
  simp [List.find?_cons, h]

theorem find?_cons_neg {α : Type} (P : α → Bool) (a : α) (l : List α) (h : P a = false) :
    (a :: l).find? P = l.find? P := by
  simp [List.find?_cons, h]

theorem firstsF_mem (x : Nat) :
    ∀ (fuel : Nat) (l : List Nat), l.length ≤ fuel → (x ∈ firstsF fuel l ↔ x ∈ l)
  | fuel, [], _ => by cases fuel <;> simp [firstsF]
  | 0, v :: vs, h => by simp at h
  | fuel + 1, v :: vs, h => by
    have hlen : (vs.filter fun x => x ≠ v).length ≤ fuel :=
      le_trans (List.length_filter_le _ _) (by simpa using h)
    simp only [firstsF, List.mem_cons, firstsF_mem x fuel _ hlen, List.mem_filter,
      decide_eq_true_eq]
    by_cases hx : x = v
    · simp [hx]
    · simp [hx]

theorem firsts_mem (x : Nat) (l : List Nat) : x ∈ firsts l ↔ x ∈ l :=
  firstsF_mem x l.length l (le_refl _)

theorem find?_filter_ne (P : Nat → Bool) (v : Nat) (hv : P v = false) :
    ∀ l : List Nat, (l.filter fun x => x ≠ v).find? P = l.find? P
  | [] => rfl
  | c :: cs => by
    rw [List.filter_cons]
    by_cases hc : c = v
    · subst hc
      rw [if_neg (by simp)]
      rw [find?_filter_ne P c hv cs, find?_cons_neg P c cs hv]
    · rw [if_pos (by simp [hc])]
      cases hP : P c with
      | true => rw [find?_cons_pos P c _ hP, find?_cons_pos P c cs hP]
      | false =>
        rw [find?_cons_neg P c _ hP, find?_cons_neg P c cs hP]
        exact find?_filter_ne P v hv cs

theorem firstsF_find? (P : Nat → Bool) :
    ∀ (fuel : Nat) (l : List Nat), l.length ≤ fuel → (firstsF fuel l).find? P = l.find? P
  | fuel, [], _ => by cases fuel <;> rfl
  | 0, v :: vs, h => by simp at h
  | fuel + 1, v :: vs, h => by
    have hlen : (vs.filter fun x => x ≠ v).length ≤ fuel :=
      le_trans (List.length_filter_le _ _) (by simpa using h)
    simp only [firstsF]
    cases hP : P v with
    | true => rw [find?_cons_pos P v _ hP, find?_cons_pos P v vs hP]
    | false =>
      rw [find?_cons_neg P v _ hP, find?_cons_neg P v vs hP,
        firstsF_find? P fuel _ hlen, find?_filter_ne P v hP vs]

theorem firsts_find? (P : Nat → Bool) (l : List Nat) : (firsts l).find? P = l.find? P :=
  firstsF_find? P l.length l (le_refl _)

theorem pickMax_cons (p q : Nat × Nat) (rest : List (Nat × Nat)) :
    pickMax p (q :: rest) = pickMax (if q.2 > p.2 then q else p) rest := by
  simp [pickMax]

theorem pickMax_head_le : ∀ (rest : List (Nat × Nat)) (p : Nat × Nat),
    p.2 ≤ (pickMax p rest).2
  | [], _ => le_refl _
  | q :: rest, p => by
    rw [pickMax_cons]
    by_cases h : q.2 > p.2
    · rw [if_pos h]
      exact le_trans (le_of_lt h) (pickMax_head_le rest q)
    · rw [if_neg h]
      exact pickMax_head_le rest p

theorem pickMax_mem : ∀ (rest : List (Nat × Nat)) (p : Nat × Nat), pickMax p rest ∈ p :: rest
  | [], p => List.mem_singleton.2 rfl
  | q :: rest, p => by
    rw [pickMax_cons]
    by_cases h : q.2 > p.2
    · rw [if_pos h]
      exact List.mem_cons_of_mem _ (pickMax_mem rest q)
    · rw [if_neg h]
      rcases List.mem_cons.1 (pickMax_mem rest p) with h' | h'
      · rw [h']; exact List.mem_cons_self _ _
      · exact List.mem_cons_of_mem _ (List.mem_cons_of_mem _ h')

theorem pickMax_le : ∀ (rest : List (Nat × Nat)) (p q : Nat × Nat),
    q ∈ p :: rest → q.2 ≤ (pickMax p rest).2
  | [], p, q, h => by
    rcases List.mem_cons.1 h with rfl | h'
    · exact le_refl _
    · simp at h'
  | r :: rest, p, q, h => by
    rw [pickMax_cons]
    rcases List.mem_cons.1 h with rfl | h'
    · by_cases hr : r.2 > q.2
      · rw [if_pos hr]
        exact le_trans (le_of_lt hr) (pickMax_head_le rest r)
      · rw [if_neg hr]
        exact pickMax_head_le rest q
    · rcases List.mem_cons.1 h' with rfl | h''
      · by_cases hr : q.2 > p.2
        · rw [if_pos hr]
          exact pickMax_head_le rest q
        · rw [if_neg hr]
          exact le_trans (Nat.le_of_not_lt hr) (pickMax_head_le rest p)
      · by_cases hr : r.2 > p.2 <;>
          [rw [if_pos hr]; rw [if_neg hr]] <;>
          exact pickMax_le rest _ q (List.mem_cons_of_mem _ h'')

theorem pickMax_eq_head : ∀ (rest : List (Nat × Nat)) (p : Nat × Nat),
    (pickMax p rest).2 = p.2 → pickMax p rest = p
  | [], _, _ => rfl
  | r :: rest, p, h => by
    rw [pickMax_cons] at h ⊢
    by_cases hr : r.2 > p.2
    · rw [if_pos hr] at h ⊢
      exfalso
      have := pickMax_head_le rest r
      omega
    · rw [if_neg hr] at h ⊢
      exact pickMax_eq_head rest p h

theorem pickMax_find? : ∀ (rest : List (Nat × Nat)) (p : Nat × Nat),
    (p :: rest).find? (fun q => q.2 = (pickMax p rest).2) = some (pickMax p rest)
  | [], p => by
    rw [show pickMax p [] = p from rfl]
    exact find?_cons_pos _ p [] (by simp)
  | r :: rest, p => by
    by_cases hr : r.2 > p.2
    · have hpm : pickMax p (r :: rest) = pickMax r rest := by
        rw [pickMax_cons, if_pos hr]
      rw [hpm]
      rw [find?_cons_neg _ p _ (by
        have := pickMax_head_le rest r
        simp only [decide_eq_false_iff_not]
        omega)]
      exact pickMax_find? rest r
    · have hpm : pickMax p (r :: rest) = pickMax p rest := by
        rw [pickMax_cons, if_neg hr]
      rw [hpm]
      by_cases hp : p.2 = (pickMax p rest).2
      · have heq : pickMax p rest = p := pickMax_eq_head rest p hp.symm
        rw [heq]
        exact find?_cons_pos _ p _ (by simp)
      · have hple : p.2 ≤ (pickMax p rest).2 := pickMax_head_le rest p
        have hrle : r.2 ≤ p.2 := Nat.le_of_not_lt hr
        have hIH := pickMax_find? rest p
        rw [find?_cons_neg _ p _ (by simpa using hp)] at hIH
        rw [find?_cons_neg _ p _ (by simpa using hp),
          find?_cons_neg _ r _ (by
            simp only [decide_eq_false_iff_not]
            omega)]
        exact hIH

theorem find?_count_transfer (cnt : Nat → Nat) (M : Nat) :
    ∀ l : List Nat,
      ((l.map fun v => (v, cnt v)).find? fun q => q.2 = M) =
        (l.find? fun v => cnt v = M).map fun v => (v, cnt v)
  | [] => rfl
  | x :: xs => by
    rw [List.map_cons]
    cases hx : decide (cnt x = M) with
    | true =>
      rw [find?_cons_pos _ (x, cnt x) _ hx, find?_cons_pos _ x xs hx, Option.map_some']
    | false =>
      rw [find?_cons_neg _ (x, cnt x) _ hx, find?_cons_neg _ x xs hx]
      exact find?_count_transfer cnt M xs

theorem firsts_ne_nil (l : List Nat) (h : l ≠ []) : firsts l ≠ [] := by
  cases l with
  | nil => exact absurd rfl h
  | cons v vs => simp [firsts, firstsF]

/-- The dominant date is a candidate value of maximal multiplicity, and it is
the first value in scan order attaining that multiplicity. -/
theorem mostCommon_spec (l : List Nat) (hl : l ≠ []) :
    (∀ v ∈ l, l.count v ≤ l.count (mostCommon l)) ∧
    l.find? (fun v => l.count v = l.count (mostCommon l)) = some (mostCommon l) := by
  cases hcp : counterPairs l with
  | nil =>
    exfalso
    apply firsts_ne_nil l hl
    have := congrArg List.length hcp
    simpa [counterPairs] using this
  | cons p rest =>
    have hmc : mostCommon l = (pickMax p rest).1 := by
      simp [mostCommon, hcp]
    have hentry : ∀ q ∈ p :: rest, q.2 = l.count q.1 := by
      intro q hq
      rw [← hcp] at hq
      obtain ⟨w, _, rfl⟩ := List.mem_map.1 hq
      rfl
    have hb_mem : pickMax p rest ∈ p :: rest := pickMax_mem rest p
    have hb2 : (pickMax p rest).2 = l.count (pickMax p rest).1 := hentry _ hb_mem
    constructor
    · intro v hv
      have hvf : v ∈ firsts l := (firsts_mem v l).2 hv
      have hvp : (v, l.count v) ∈ counterPairs l := List.mem_map.2 ⟨v, hvf, rfl⟩
      rw [hcp] at hvp
      have hle := pickMax_le rest p _ hvp
      rw [hmc, ← hb2]
      exact hle
    · have hfind := pickMax_find? rest p
      rw [← hcp] at hfind
      rw [show counterPairs l = (firsts l).map fun v => (v, l.count v) from rfl] at hfind
      rw [find?_count_transfer l.count (pickMax p rest).2 (firsts l)] at hfind
      obtain ⟨v0, hv0, hfv0⟩ := Option.map_eq_some'.1 hfind
      have hv01 : v0 = (pickMax p rest).1 := congrArg Prod.fst hfv0
      rw [firsts_find?] at hv0
      rw [hmc, ← hb2]
      rw [hv0, hv01]

/-! ## Replacement-map construction (towards C1, C9) -/

theorem upsert_mem_self (m : List (String × String)) (k v : String) :
    (k, v) ∈ upsert m k v := by
  unfold upsert
  split
  · next h =>
      obtain ⟨p, hp, hpk⟩ := List.any_eq_true.1 h
      simp only [decide_eq_true_eq] at hpk
      exact List.mem_map.2 ⟨p, hp, by rw [if_pos hpk]⟩
  · exact List.mem_append_right _ (List.mem_singleton.2 rfl)

theorem upsert_mem (m : List (String × String)) (k v k' v' : String)
    (h : (k', v') ∈ upsert m k v) : (k', v') ∈ m ∨ (k' = k ∧ v' = v) := by
  unfold upsert at h
  split at h
  · obtain ⟨p, hp, him⟩ := List.mem_map.1 h
    by_cases hpk : p.1 = k
    · rw [if_pos hpk] at him
      right
      exact ⟨(Prod.ext_iff.1 him.symm).1, (Prod.ext_iff.1 him.symm).2⟩
    · rw [if_neg hpk] at him
      left
      rw [← him]
      exact hp
  · rcases List.mem_append.1 h with h | h
    · exact Or.inl h
    · right
      have hkv := List.mem_singleton.1 h
      exact ⟨(Prod.ext_iff.1 hkv).1, (Prod.ext_iff.1 hkv).2⟩

theorem upsert_keep (m : List (String × String)) (k v k' v' : String)
    (hm : (k', v') ∈ m) (hcond : k' ≠ k ∨ v' = v) : (k', v') ∈ upsert m k v := by
  unfold upsert
  split
  · refine List.mem_map.2 ⟨(k', v'), hm, ?_⟩
    by_cases hk : k' = k
    · rcases hcond with h | h
      · contradiction
      · subst hk; subst h; rw [if_pos rfl]
    · rw [if_neg hk]
  · exact List.mem_append_left _ hm

theorem addRepl_mem (m : List (String × String)) (s k v : String)
    (h : (k, v) ∈ addRepl m s) : (k, v) ∈ m ∨ entryFor s k v := by
  unfold addRepl at h
  by_cases hh : hasHyphen s = true
  · rw [if_pos hh] at h
    rcases upsert_mem _ _ _ _ _ h with h1 | h1
    · rcases upsert_mem _ _ _ _ _ h1 with h2 | h2
      · exact Or.inl h2
      · exact Or.inr (Or.inl ⟨hh, h2.2, Or.inl h2.1⟩)
    · exact Or.inr (Or.inl ⟨hh, h1.2, Or.inr h1.1⟩)
  · rw [if_neg hh] at h
    rcases upsert_mem _ _ _ _ _ h with h1 | h1
    · exact Or.inl h1
    · exact Or.inr (Or.inr ⟨Bool.not_eq_true _ ▸ hh, h1.2, h1.1⟩)

/-! Shape facts about recognized literals. -/

theorem regexISO_head (l : List Char) (h : regexISO l = true) :
    ∃ c cs, l = c :: cs ∧ c.isDigit = true := by
  unfold regexISO at h
  split at h
  · next y1 y2 y3 y4 h1 m1 m2 h2 d1 d2 =>
      refine ⟨y1, _, rfl, ?_⟩
      simp only [Bool.and_eq_true] at h
      exact h.1.1.1.1.1.1.1.1.1
  · exact absurd h (by simp)

theorem regexINT_head (l : List Char) (h : regexINT l = true) :
    ∃ c cs, l = c :: cs ∧ c.isDigit = true := by
  cases l with
  | nil => simp [regexINT] at h
  | cons c cs =>
    refine ⟨c, cs, rfl, ?_⟩
    unfold regexINT at h
    simp only [Bool.and_eq_true, List.all_cons] at h
    exact h.2.1

theorem normalize_head_digit (s : String) (d : Nat) (h : normalize_date s = some d) :
    ∃ c cs, s.data = c :: cs ∧ c.isDigit = true := by
  unfold normalize_date at h
  by_cases h1 : regexISO s.data = true
  · exact regexISO_head s.data h1
  · rw [if_neg h1] at h
    by_cases h2 : regexINT s.data = true
    · exact regexINT_head s.data h2
    · rw [if_neg h2] at h
      exact absurd h (by simp)

theorem quoted_data (s : String) : (quoted s).data = '\'' :: (s.data ++ ['\'']) := by
  have h : (quoted s).data = ("'" : String).data ++ s.data ++ ("'" : String).data := by
    unfold quoted
    rw [String.data_append, String.data_append]
  simpa using h

theorem quoted_ne_datelit (s s' : String) (d : Nat) (h : normalize_date s' = some d) :
    quoted s ≠ s' := by
  intro he
  obtain ⟨c, cs, hdata, hdig⟩ := normalize_head_digit s' d h
  rw [← he, quoted_data] at hdata
  have hc : c = '\'' := (List.cons_eq_cons.1 hdata.symm).1
  rw [hc] at hdig
  exact absurd hdig (by decide)

theorem quoted_inj (a b : String) (h : quoted a = quoted b) : a = b := by
  have hd : (quoted a).data = (quoted b).data := congrArg String.data h
  rw [quoted_data, quoted_data] at hd
  have hab : a.data = b.data := by
    have := (List.cons_eq_cons.1 hd).2
    exact List.append_left_inj _ |>.1 this
  cases a; cases b
  exact congrArg String.mk hab

theorem find_literals_normalize (frag : FragLits) (s : String) (d : Nat)
    (h : (s, d) ∈ find_literals_in_sql frag) : normalize_date s = some d := by
  cases frag with
  | none => simp [find_literals_in_sql] at h
  | some lits =>
    simp only [find_literals_in_sql, List.mem_filterMap] at h
    obtain ⟨v, _, hf⟩ := h
    cases v with
    | nonStr => simp at hf
    | str s' =>
      simp only [Option.map_eq_some'] at hf
      obtain ⟨d', hd', heq⟩ := hf
      have hs : s' = s := (Prod.ext_iff.1 heq).1
      have hdd : d' = d := (Prod.ext_iff.1 heq).2
      rw [← hs, ← hdd]
      exact hd'

theorem allCandidates_normalize (ctes : List FragLits) (main : FragLits) (s : String) (d : Nat)
    (h : (s, d) ∈ allCandidates ctes main) : normalize_date s = some d := by
  unfold allCandidates at h
  rcases List.mem_append.1 h with h | h
  · obtain ⟨lc, hlc, hmem⟩ := List.mem_flatten.1 h
    obtain ⟨frag, _, rfl⟩ := List.mem_map.1 hlc
    exact find_literals_normalize frag s d hmem
  · exact find_literals_normalize main s d h

/-! Persistence of entries through the fold. -/

theorem addRepl_keep (m : List (String × String)) (k v s' : String) (d' : Nat)
    (hnorm : normalize_date s' = some d') (hok : okEntry k v) (hm : (k, v) ∈ m) :
    (k, v) ∈ addRepl m s' := by
  obtain ⟨s0, d0, hn0, he0⟩ := hok
  have bareCond : k = s' → v = (if hasHyphen s' = true then ISO_PH else COMPACT_PH) := by
    intro hk
    rcases he0 with ⟨hhy, hv, hkk⟩ | ⟨hhy, hv, hkk⟩
    · rcases hkk with hkq | hkb
      · exact absurd (hkq.symm.trans hk) (quoted_ne_datelit s0 s' d' hnorm)
      · have hs0 : s0 = s' := hkb.symm.trans hk
        rw [← hs0, if_pos hhy]
        exact hv
    · have hs0 : s0 = s' := hkk.symm.trans hk
      rw [← hs0, if_neg (by rw [hhy]; simp)]
      exact hv
  unfold addRepl
  by_cases hh : hasHyphen s' = true
  · rw [if_pos hh]
    have h1 : (k, v) ∈ upsert m (quoted s') ISO_PH := by
      apply upsert_keep _ _ _ _ _ hm
      by_cases hk : k = quoted s'
      · right
        rcases he0 with ⟨hhy, hv, hkk⟩ | ⟨hhy, hv, hkk⟩
        · exact hv
        · exact absurd (hkk.symm.trans hk).symm (quoted_ne_datelit s' s0 d0 hn0)
      · exact Or.inl hk
    apply upsert_keep _ _ _ _ _ h1
    by_cases hk : k = s'
    · right
      have := bareCond hk
      rw [if_pos hh] at this
      exact this
    · exact Or.inl hk
  · rw [if_neg hh]
    apply upsert_keep _ _ _ _ _ hm
    by_cases hk : k = s'
    · right
      have := bareCond hk
      rw [if_neg hh] at this
      exact this
    · exact Or.inl hk

theorem fold_keep (dom : Nat) :
    ∀ (cands : List (String × Nat)) (m : List (String × String)) (k v : String),
      (∀ p ∈ cands, normalize_date p.1 = some p.2) → okEntry k v → (k, v) ∈ m →
      (k, v) ∈ cands.foldl (fun m p => if p.2 = dom then addRepl m p.1 else m) m
  | [], _, _, _, _, _, hm => hm
  | p :: rest, m, k, v, hnorm, hok, hm => by
    simp only [List.foldl_cons]
    apply fold_keep dom rest _ k v (fun q hq => hnorm q (List.mem_cons_of_mem _ hq)) hok
    by_cases hd : p.2 = dom
    · rw [if_pos hd]
      exact addRepl_keep m k v p.1 p.2 (hnorm p (List.mem_cons_self _ _)) hok hm
    · rw [if_neg hd]
      exact hm

theorem addRepl_adds (m : List (String × String)) (s : String) :
    (hasHyphen s = true → (quoted s, ISO_PH) ∈ addRepl m s ∧ (s, ISO_PH) ∈ addRepl m s) ∧
    (hasHyphen s = false → (s, COMPACT_PH) ∈ addRepl m s) := by
  constructor
  · intro hh
    unfold addRepl
    rw [if_pos hh]
    constructor
    · exact upsert_keep _ _ _ _ _ (upsert_mem_self m (quoted s) ISO_PH) (Or.inr rfl)
    · exact upsert_mem_self _ s ISO_PH
  · intro hh
    unfold addRepl
    rw [if_neg (by rw [hh]; simp)]
    exact upsert_mem_self m s COMPACT_PH

theorem fold_complete (dom : Nat) :
    ∀ (cands : List (String × Nat)) (m : List (String × String)),
      (∀ p ∈ cands, normalize_date p.1 = some p.2) →
      ∀ s d, (s, d) ∈ cands → d = dom →
        (hasHyphen s = true →
          (quoted s, ISO_PH) ∈
              cands.foldl (fun m p => if p.2 = dom then addRepl m p.1 else m) m ∧
            (s, ISO_PH) ∈
              cands.foldl (fun m p => if p.2 = dom then addRepl m p.1 else m) m) ∧
        (hasHyphen s = false →
          (s, COMPACT_PH) ∈
            cands.foldl (fun m p => if p.2 = dom then addRepl m p.1 else m) m)
  | [], _, _, s, d, h, _ => by simp at h
  | p :: rest, m, hnorm, s, d, hmem, hdom => by
    simp only [List.foldl_cons]
    have hnormrest : ∀ q ∈ rest, normalize_date q.1 = some q.2 :=
      fun q hq => hnorm q (List.mem_cons_of_mem _ hq)
    rcases List.mem_cons.1 hmem with heq | hrest
    · have hp1 : p.1 = s := (Prod.ext_iff.1 heq.symm).1
      have hp2d : p.2 = d := (Prod.ext_iff.1 heq.symm).2
      have hp2 : p.2 = dom := by rw [hp2d, hdom]
      rw [if_pos hp2, hp1]
      have hnorms : normalize_date s = some d := by
        have h0 := hnorm p (List.mem_cons_self _ _)
        rw [hp1, hp2d] at h0
        exact h0
      constructor
      · intro hh
        have hadds := (addRepl_adds m s).1 hh
        exact ⟨fold_keep dom rest _ _ _ hnormrest
            ⟨s, d, hnorms, Or.inl ⟨hh, rfl, Or.inl rfl⟩⟩ hadds.1,
          fold_keep dom rest _ _ _ hnormrest
            ⟨s, d, hnorms, Or.inl ⟨hh, rfl, Or.inr rfl⟩⟩ hadds.2⟩
      · intro hh
        exact fold_keep dom rest _ _ _ hnormrest
          ⟨s, d, hnorms, Or.inr ⟨hh, rfl, rfl⟩⟩ ((addRepl_adds m s).2 hh)
    · exact fold_complete dom rest _ hnormrest s d hrest hdom

theorem fold_contained (dom : Nat) :
    ∀ (cands : List (String × Nat)) (m : List (String × String)) (k v : String),
      (k, v) ∈ cands.foldl (fun m p => if p.2 = dom then addRepl m p.1 else m) m →
      (k, v) ∈ m ∨ ∃ s d, (s, d) ∈ cands ∧ d = dom ∧ entryFor s k v
  | [], _, _, _, h => Or.inl h
  | p :: rest, m, k, v, h => by
    simp only [List.foldl_cons] at h
    rcases fold_contained dom rest _ k v h with hm | ⟨s, d, hc, hd, he⟩
    · by_cases hp : p.2 = dom
      · rw [if_pos hp] at hm
        rcases addRepl_mem m p.1 k v hm with h' | h'
        · exact Or.inl h'
        · exact Or.inr ⟨p.1, p.2, List.mem_cons_self _ _, hp, h'⟩
      · rw [if_neg hp] at hm
        exact Or.inl hm
    · exact Or.inr ⟨s, d, List.mem_cons_of_mem _ hc, hd, he⟩

theorem date_replacements_eq_fold (ctes : List FragLits) (main : FragLits)
    (hne : allCandidates ctes main ≠ []) :
    date_replacements ctes main =
      (allCandidates ctes main).foldl
        (fun m p => if p.2 = domDate ctes main then addRepl m p.1 else m) [] := by
  have hemp : (allCandidates ctes main).isEmpty = false := by
    cases h' : allCandidates ctes main with
    | nil => exact absurd h' hne
    | cons a l => rfl
  simp only [date_replacements]
  rw [if_neg (by rw [hemp]; simp)]
  rfl

/-- C1: when there are no recognized date literals the replacement map is
empty; otherwise the dominant date is a candidate value of maximal
multiplicity and the first-encountered value (in scan order over CTE bodies
then main query) attaining it; every map entry comes from a candidate
literal of the dominant date in one of the prescribed forms (hyphenated:
quoted and bare to the ISO placeholder; compact: bare to the compact
placeholder), and every dominant-date candidate contributes its prescribed
entries. -/
theorem C1_date_dominance (ctes : List FragLits) (main : FragLits) :
    (allCandidates ctes main = [] → date_replacements ctes main = []) ∧
    (allCandidates ctes main ≠ [] →
      (∀ v ∈ candVals ctes main,
        (candVals ctes main).count v ≤ (candVals ctes main).count (domDate ctes main)) ∧
      (candVals ctes main).find?
          (fun v => (candVals ctes main).count v =
            (candVals ctes main).count (domDate ctes main)) =
        some (domDate ctes main) ∧
      (∀ k v, (k, v) ∈ date_replacements ctes main →
        ∃ s d, (s, d) ∈ allCandidates ctes main ∧ d = domDate ctes main ∧ entryFor s k v) ∧
      (∀ s d, (s, d) ∈ allCandidates ctes main → d = domDate ctes main →
        (hasHyphen s = true →
          (quoted s, ISO_PH) ∈ date_replacements ctes main ∧
            (s, ISO_PH) ∈ date_replacements ctes main) ∧
        (hasHyphen s = false → (s, COMPACT_PH) ∈ date_replacements ctes main))) := by
  constructor
  · intro h
    simp [date_replacements, h]
  · intro hne
    have hvne : candVals ctes main ≠ [] := by
      unfold candVals
      intro h
      exact hne (List.map_eq_nil_iff.1 h)
    have hspec := mostCommon_spec (candVals ctes main) hvne
    have hnorm : ∀ p ∈ allCandidates ctes main, normalize_date p.1 = some p.2 :=
      fun p hp => allCandidates_normalize ctes main p.1 p.2 hp
    have hdr := date_replacements_eq_fold ctes main hne
    refine ⟨hspec.1, hspec.2, ?_, ?_⟩
    · intro k v hmem
      rw [hdr] at hmem
      rcases fold_contained (domDate ctes main) (allCandidates ctes main) [] k v hmem with
        h | h
      · simp at h
      · exact h
    · intro s d hmem hdom
      have h := fold_complete (domDate ctes main) (allCandidates ctes main) [] hnorm
        s d hmem hdom
      rw [hdr]
      exact h

/-- Witness for C1 on the spec's date-dominance example: `'2025-01-01'`
three times, `'2025-06-01'` once, `20250101` once — the dominant date is
2025-01-01 and the map holds the quoted ISO, bare ISO and compact entries. -/
theorem C1_date_dominance_witness :
    ("'2025-01-01'", ISO_PH) ∈ date_replacements exampleCtes exampleMain ∧
      ("2025-01-01", ISO_PH) ∈ date_replacements exampleCtes exampleMain ∧
      ("20250101", COMPACT_PH) ∈ date_replacements exampleCtes exampleMain := by
  have h := (C1_date_dominance exampleCtes exampleMain).2 (by decide)
  have hiso := h.2.2.2 "2025-01-01" 20250101 (by decide) (by decide)
  have hcmp := h.2.2.2 "20250101" 20250101 (by decide) (by decide)
  exact ⟨(hiso.1 (by decide)).1, (hiso.1 (by decide)).2, hcmp.2 (by decide)⟩

/-- C9: a literal shaped like `YYYY-MM-DD` or `YYYYMMDD` whose fields are not
a real calendar date is rejected by `normalize_date` (`strptime` raises),
so it is never a literal candidate, and neither its bare nor its quoted
form is ever a key of the replacement map. -/
theorem C9_invalid_dates (s : String)
    (hshape : regexISO s.data = true ∨ regexINT s.data = true)
    (hbadISO : regexISO s.data = true →
      validYMD (isoY s.data) (isoM s.data) (isoD s.data) = false)
    (hbadINT : regexINT s.data = true →
      validYMD (intY s.data) (intM s.data) (intD s.data) = false) :
    normalize_date s = none ∧
    (∀ (frag : FragLits) (d : Nat), (s, d) ∉ find_literals_in_sql frag) ∧
    (∀ (ctes : List FragLits) (main : FragLits) (v : String),
      (s, v) ∉ date_replacements ctes main ∧
        (quoted s, v) ∉ date_replacements ctes main) := by
  have hnone : normalize_date s = none := by
    unfold normalize_date
    by_cases h1 : regexISO s.data = true
    · rw [if_pos h1, if_neg (by rw [hbadISO h1]; simp)]
    · rw [if_neg h1]
      rcases hshape with h | h
      · contradiction
      · rw [if_pos h, if_neg (by rw [hbadINT h]; simp)]
  have hdigit : ∃ c cs, s.data = c :: cs ∧ c.isDigit = true := by
    rcases hshape with h | h
    · exact regexISO_head s.data h
    · exact regexINT_head s.data h
  have hfind : ∀ (frag : FragLits) (d : Nat), (s, d) ∉ find_literals_in_sql frag := by
    intro frag d hmem
    have := find_literals_normalize frag s d hmem
    rw [hnone] at this
    exact Option.noConfusion this
  refine ⟨hnone, hfind, ?_⟩
  intro ctes main v
  have hcontained : ∀ k v', (k, v') ∈ date_replacements ctes main →
      ∃ s0 d0, normalize_date s0 = some d0 ∧ entryFor s0 k v' := by
    intro k v' hmem
    by_cases hc : allCandidates ctes main = []
    · rw [(by simp [date_replacements, hc] :
        date_replacements ctes main = ([] : List (String × String)))] at hmem
      simp at hmem
    · rw [date_replacements_eq_fold ctes main hc] at hmem
      rcases fold_contained (domDate ctes main) (allCandidates ctes main) [] k v' hmem with
        h | ⟨s0, d0, hcand, _, he⟩
      · simp at h
      · exact ⟨s0, d0, allCandidates_normalize ctes main s0 d0 hcand, he⟩
  constructor
  · intro hmem
    obtain ⟨s0, d0, hn0, he0⟩ := hcontained s v hmem
    rcases he0 with ⟨_, _, hk⟩ | ⟨_, _, hk⟩
    · rcases hk with hk | hk
      · -- s = quoted s0 : but s starts with a digit, quoted with a quote
        obtain ⟨c, cs, hdata, hdig⟩ := hdigit
        rw [hk, quoted_data] at hdata
        have hc : '\'' = c := (List.cons_eq_cons.1 hdata).1
        rw [← hc] at hdig
        exact absurd hdig (by decide)
      · rw [← hk] at hn0
        rw [hnone] at hn0
        exact Option.noConfusion hn0
    · rw [← hk] at hn0
      rw [hnone] at hn0
      exact Option.noConfusion hn0
  · intro hmem
    obtain ⟨s0, d0, hn0, he0⟩ := hcontained (quoted s) v hmem
    rcases he0 with ⟨_, _, hk⟩ | ⟨_, _, hk⟩
    · rcases hk with hk | hk
      · -- quoted s = quoted s0
        have hs : s = s0 := quoted_inj _ _ hk
        rw [← hs] at hn0
        rw [hnone] at hn0
        exact Option.noConfusion hn0
      · exact absurd hk (quoted_ne_datelit s s0 d0 hn0)
    · exact absurd hk (quoted_ne_datelit s s0 d0 hn0)

/-- Witness for C9 at the invalid literal `2025-13-01` (month 13). -/
theorem C9_invalid_dates_witness :
    normalize_date "2025-13-01" = none ∧
      ("2025-13-01", 20251301) ∉ find_literals_in_sql (some [PyVal.str "2025-13-01"]) := by
  have h := C9_invalid_dates "2025-13-01" (Or.inl (by decide)) (fun _ => by decide)
    (fun hint => absurd hint (by decide))
  exact ⟨h.1, h.2.1 _ _⟩

end Athena2Glue
